import Mathlib

/-!
# Verification of the relation/order algebra and modular arithmetic engines

Shallow embedding of the core functions of the `calculadora-conjuntos`
repository (`src/app/modular.tsx` and the relation/Hasse engine in
`src/app/page.tsx`), together with proofs and refutations of the frozen
specification claims.

Conventions of the embedding:
* JavaScript numbers holding integer values are modelled as `Int`
  (the spec fixes integer-only arithmetic; `Math.trunc(a/b)` is `Int.tdiv`,
  the JS `%` operator is `Int.tmod`).
* JS `Set<Elem>` / `Set<string>`-of-pair-keys are modelled as Lean lists with
  decidable membership; `pairKey(a,b) = a + "|||" + b` is injective under the
  spec's separator guarantee, so a key set is modelled as a list of pairs.
* Elements are an arbitrary type with decidable equality (the code uses
  strings as opaque tokens).
-/

/-- Result record of `egcd` in `src/app/modular.tsx`: `{ g, x, y }`. -/
structure EGCD where
  g : Int
  x : Int
  y : Int
deriving DecidableEq

/-- The `while (b !== 0)` loop of `egcd`, with an explicit fuel that the
wrapper instantiates with `b.natAbs + 1`, a bound the loop never exhausts
(the second argument strictly decreases in absolute value). Loop body:
`q = Math.trunc(a / b); [a,b] = [b, a - q*b]; [x0,x1] = [x1, x0 - q*x1];
[y0,y1] = [y1, y0 - q*y1]`, returning `{ g: Math.abs(a), x: x0, y: y0 }`. -/
def egcdAux : Nat → Int → Int → Int → Int → Int → Int → EGCD
  | 0, a, _, x0, y0, _, _ => ⟨(a.natAbs : Int), x0, y0⟩
  | fuel + 1, a, b, x0, y0, x1, y1 =>
    if b = 0 then ⟨(a.natAbs : Int), x0, y0⟩
    else
      egcdAux fuel b (a - a.tdiv b * b) x1 y1 (x0 - a.tdiv b * x1) (y0 - a.tdiv b * y1)

/-- `egcd(a, b)` of `src/app/modular.tsx`. -/
def egcd (a b : Int) : EGCD :=
  egcdAux (b.natAbs + 1) a b 1 0 0 1

/-- `modNorm(a, m)` of `src/app/modular.tsx`: `if (m === 0) return a;
const r = a % m; return r < 0 ? r + Math.abs(m) : r;` (JS `%` truncates,
i.e. is `Int.tmod`). -/
def modNorm (a m : Int) : Int :=
  if m = 0 then a
  else
    let r := Int.tmod a m
    if r < 0 then r + (m.natAbs : Int) else r

/-- `modInv(a, m)` of `src/app/modular.tsx`. -/
def modInv (a m : Int) : Option Int :=
  let e := egcd a m
  if e.g ≠ 1 then none else some (modNorm e.x m)

/-- Result record of `solveLinearCongruence`: `{ hasSolution, x0?, mod? }`. -/
structure LinCong where
  hasSolution : Bool
  x0 : Option Int
  mod : Option Int
deriving DecidableEq

/-- `solveLinearCongruence(a, b, m)` of `src/app/modular.tsx`.
The extra `g = 0` branch mirrors JavaScript exactly: when
`g = gcd(|a|,|m|) = 0` (only for `a = m = 0`) the JS test `b % g !== 0`
compares `NaN !== 0`, which is true, so the function reports no solution. -/
def solveLinearCongruence (a b m : Int) : LinCong :=
  let g := (egcd (a.natAbs : Int) (m.natAbs : Int)).g
  if g = 0 then ⟨false, none, none⟩
  else if Int.tmod b g ≠ 0 then ⟨false, none, none⟩
  else
    let a1 := a.tdiv g
    let b1 := b.tdiv g
    let m1 := m.tdiv g
    match modInv (modNorm a1 m1) (m1.natAbs : Int) with
    | none => ⟨false, none, none⟩
    | some inv => ⟨true, some (modNorm (inv * b1) (m1.natAbs : Int)), some (m1.natAbs : Int)⟩

/-! ## The relation/order engine of `src/app/page.tsx`

Elements (`Elem = string` in the source) are modelled by an arbitrary type
with decidable equality.  JS `Set`s and the `Set<string>` of `pairKey`s are
modelled as lists with decidable membership (iteration order = insertion
order, as in JS). -/

section RelationDefs

variable {α : Type} [DecidableEq α]

/-- Adjacency list built by `transitiveClosureFromCovers`: `adj.get(a)` holds
the second components of all cover pairs whose first component is `a`, in
input order. -/
def adjList (covers : List (α × α)) (a : α) : List α :=
  (covers.filter (fun p => decide (p.1 = a))).map Prod.snd

/-- The inner `while (stack.length)` depth-first search of
`transitiveClosureFromCovers`: pop `v`, skip if visited, otherwise mark it
visited and push its not-yet-visited neighbours.  The stack is represented
with its top at the head.  The fuel argument only models the finitely many
iterations the JS loop performs; `dfsFrom` supplies a bound that is never
exhausted. -/
def dfsAux (covers : List (α × α)) : Nat → List α → List α → List α
  | 0, visited, _ => visited
  | _ + 1, visited, [] => visited
  | fuel + 1, visited, v :: stack =>
    if v ∈ visited then dfsAux covers fuel visited stack
    else
      dfsAux covers fuel (v :: visited)
        (((adjList covers v).filter (fun w => decide (w ∉ v :: visited))) ++ stack)

/-- All nodes visited by the depth-first search started from `a`'s adjacency
list (i.e. the nodes the closure emits as second components for source `a`,
besides `a` itself). -/
def dfsFrom (covers : List (α × α)) (a : α) : List α :=
  dfsAux covers ((covers.length + 1) * (covers.length + 1)) [] (adjList covers a)

/-- The `addPair` helper of `transitiveClosureFromCovers`.  In the source a
separate `seen` key set guards `result`; since both are extended together,
`seen` always holds exactly the keys of `result` and membership is tested on
the result list directly. -/
def addPair (res : List (α × α)) (p : α × α) : List (α × α) :=
  if p ∈ res then res else res ++ [p]

/-- One iteration of the outer `for (const a of U)` loop of
`transitiveClosureFromCovers`: emit `(a,a)`, then `(a,v)` for every node `v`
visited by the depth-first search from `a`. -/
def closurePairsFor (covers : List (α × α)) (res : List (α × α)) (a : α) : List (α × α) :=
  (dfsFrom covers a).foldl (fun r v => addPair r (a, v)) (addPair res (a, a))

/-- `transitiveClosureFromCovers(U, covers)` of `src/app/page.tsx`. -/
def transitiveClosureFromCovers (U : List α) (covers : List (α × α)) : List (α × α) :=
  U.foldl (closurePairsFor covers) []

/-- The inner `for (const c of U)` loop of `coversFromRelation`: `(a,b)`
survives iff no intermediate `c ∈ U \ {a,b}` has both `(a,c)` and `(c,b)` in
the relation key set. -/
def isCoverPair (U : List α) (relSet : List (α × α)) (a b : α) : Bool :=
  U.all fun c =>
    decide (c = a) || decide (c = b) ||
      !(decide ((a, c) ∈ relSet) && decide ((c, b) ∈ relSet))

/-- `coversFromRelation(U, relPairs, relSet)` of `src/app/page.tsx`. -/
def coversFromRelation (U : List α) (relPairs : List (α × α)) (relSet : List (α × α)) :
    List (α × α) :=
  relPairs.filter fun p =>
    decide (p.1 ≠ p.2) && decide (p.1 ∈ U) && decide (p.2 ∈ U) &&
      isCoverPair U relSet p.1 p.2

/-- The reflexivity part of `relationProps`: the first `x ∈ U` whose diagonal
pair `(x,x)` is missing from the relation key set (`reflexiveMissing` in the
source), if any. -/
def reflexiveMissing (U : List α) (relSet : List (α × α)) : Option α :=
  U.find? fun x => !decide ((x, x) ∈ relSet)

/-- The `reflexive` boolean of `relationProps`: true iff no missing diagonal
witness was found. -/
def reflexiveCheck (U : List α) (relSet : List (α × α)) : Bool :=
  (reflexiveMissing U relSet).isNone

/-- Nonempty directed paths: `PathIn E x l y` is a walk from `x` to `y` of
length `l.length + 1` whose interior vertices are `l`, each step an `E`-edge.
Used to state reachability and the spec-level hypotheses of the round-trip
claim. -/
inductive PathIn (E : α → α → Prop) : α → List α → α → Prop
  | single {a b : α} : E a b → PathIn E a [] b
  | cons {a c b : α} {l : List α} : E a c → PathIn E c l b → PathIn E a (c :: l) b

/-- Edge relation of a cover list. -/
def edgeOf (covers : List (α × α)) (x y : α) : Prop := (x, y) ∈ covers

/-- The cover list's directed graph has no (nonempty) cycle. -/
def AcyclicCovers (covers : List (α × α)) : Prop :=
  ∀ x l, ¬ PathIn (edgeOf covers) x l x

/-- No cover pair is implied by a path of length ≥ 2 through the other cover
edges. -/
def IrredundantCovers (covers : List (α × α)) : Prop :=
  ∀ a b, (a, b) ∈ covers →
    ∀ l, l ≠ [] → ¬ PathIn (fun x y => (x, y) ∈ covers ∧ (x, y) ≠ (a, b)) a l b

/-! ### The level-assignment phase of `layoutHasse`

`layoutHasse` first builds `preds`/`succs` from the cover edges whose two
endpoints are in the universe, seeds a worklist with the zero-in-degree
elements at level 0 (forcing `universe[0]` to level 0 when there are none),
then runs a breadth-first relaxation `level(w) = max(level(w), level(v)+1)`;
finally every element still unassigned defaults to level 0.  The x/y pixel
positions are a pure function of the resulting level map, so the embedding
models the level computation.  The JS `succs` sets only dedup duplicated
cover pairs; a duplicated relaxation of the same edge is a no-op, so lists
are used directly. -/

/-- The cover pairs with both endpoints in the universe (the others are
skipped when `preds`/`succs` are built). -/
def coversInU (univ : List α) (covers : List (α × α)) : List (α × α) :=
  covers.filter fun p => decide (p.1 ∈ univ) && decide (p.2 ∈ univ)

/-- `preds.get(b)`: first components of retained cover pairs ending at `b`. -/
def predsOf (univ : List α) (covers : List (α × α)) (b : α) : List α :=
  ((coversInU univ covers).filter (fun p => decide (p.2 = b))).map Prod.fst

/-- `succs.get(a)`: second components of retained cover pairs starting at `a`. -/
def succsOf (univ : List α) (covers : List (α × α)) (a : α) : List α :=
  ((coversInU univ covers).filter (fun p => decide (p.1 = a))).map Prod.snd

/-- `levelMap.get(x)` for a level map represented as an association list. -/
def lookupL : List (α × Nat) → α → Option Nat
  | [], _ => none
  | (k, v) :: rest, x => if x = k then some v else lookupL rest x

/-- `levelMap.set(k, v)`.  Only lookups are ever performed on the map, so the
entry order is irrelevant and the updated binding is put in front. -/
def mset (m : List (α × Nat)) (k : α) (v : Nat) : List (α × Nat) :=
  (k, v) :: m.filter fun p => decide (p.1 ≠ k)

/-- The `for (const w of succs.get(v))` body of the worklist loop: for each
successor `w`, if `level(v) + 1` beats `w`'s current level (or `w` has none),
set it and enqueue `w`. -/
def relaxAll (lv : Nat) : List α → List (α × Nat) → List α → List (α × Nat) × List α
  | [], m, q => (m, q)
  | w :: ws, m, q =>
    match lookupL m w with
    | none => relaxAll lv ws (mset m w (lv + 1)) (q ++ [w])
    | some cur =>
      if lv + 1 > cur then relaxAll lv ws (mset m w (lv + 1)) (q ++ [w])
      else relaxAll lv ws m q

/-- The `while (queue.length)` worklist loop of `layoutHasse`: dequeue `v`
(FIFO), relax all its successors.  The JS loop has no fuel; `none` here means
the modelled loop did not finish within `fuel` dequeues, so the source loop
runs for more than `fuel` iterations. -/
def bfsLoop (succs : α → List α) : Nat → List (α × Nat) → List α → Option (List (α × Nat))
  | _, m, [] => some m
  | 0, _, _ :: _ => none
  | fuel + 1, m, v :: q =>
    let p := relaxAll ((lookupL m v).getD 0) (succs v) m q
    bfsLoop succs fuel p.1 p.2

/-- The level map produced by the worklist phase of `layoutHasse`: seeds are
the zero-in-degree elements at level 0; if there are none and the universe is
nonempty, `universe[0]` is forced to level 0. -/
def bfsResult (fuel : Nat) (univ : List α) (covers : List (α × α)) :
    Option (List (α × Nat)) :=
  let seeds := univ.filter fun u => decide (predsOf univ covers u = [])
  match seeds, univ with
  | [], u :: _ => bfsLoop (succsOf univ covers) fuel [(u, 0)] [u]
  | s, _ => bfsLoop (succsOf univ covers) fuel (s.map fun u => (u, 0)) s

/-- The final level of every universe element as computed by `layoutHasse`
(elements the relaxation never reached default to level 0). -/
def layoutHasseLevels (fuel : Nat) (univ : List α) (covers : List (α × α)) :
    Option (List (α × Nat)) :=
  (bfsResult fuel univ covers).map fun m =>
    univ.map fun u => (u, (lookupL m u).getD 0)

end RelationDefs
/-! ## Arithmetic lemmas about the embedded modular functions -/

theorem int_neg_tmod (a m : Int) : Int.tmod (-a) m = -Int.tmod a m := by
  rw [Int.tmod_def, Int.tmod_def, Int.neg_tdiv]
  ring

theorem int_tmod_gt_neg (a : Int) {m : Int} (hm : 0 < m) : -m < Int.tmod a m := by
  rcases le_or_lt 0 a with ha | ha
  · have := Int.tmod_nonneg m ha
    omega
  · have h1 : Int.tmod (-a) m < m := Int.tmod_lt_of_pos _ hm
    have h2 : Int.tmod (-a) m = -Int.tmod a m := int_neg_tmod a m
    omega

theorem int_dvd_sub_tmod (a m : Int) : m ∣ a - Int.tmod a m := by
  rw [Int.tmod_def]
  exact ⟨a.tdiv m, by ring⟩

/-- For a positive modulus, `modNorm` agrees with Euclidean remainder. -/
theorem modNorm_eq_emod (a : Int) {m : Int} (hm : 0 < m) : modNorm a m = a % m := by
  have hm0 : m ≠ 0 := ne_of_gt hm
  have habs : ((m.natAbs : Int)) = m := Int.natAbs_of_nonneg hm.le
  have hup : Int.tmod a m < m := Int.tmod_lt_of_pos a hm
  have hlo : -m < Int.tmod a m := int_tmod_gt_neg a hm
  have hdvd : m ∣ a - Int.tmod a m := int_dvd_sub_tmod a m
  unfold modNorm
  rw [if_neg hm0]
  set r := Int.tmod a m with hr
  by_cases hneg : r < 0
  · rw [if_pos hneg, habs]
    have hdvd' : m ∣ a - (r + m) := by
      have : a - (r + m) = (a - r) - m := by ring
      rw [this]
      exact dvd_sub hdvd dvd_rfl
    have h1 : a % m = (r + m) % m := by
      rw [Int.emod_eq_emod_iff_emod_sub_eq_zero]
      exact Int.emod_eq_zero_of_dvd hdvd'
    have h2 : (r + m) % m = r + m := Int.emod_eq_of_lt (by omega) (by omega)
    omega
  · rw [if_neg hneg]
    have h1 : a % m = r % m := by
      rw [Int.emod_eq_emod_iff_emod_sub_eq_zero]
      exact Int.emod_eq_zero_of_dvd hdvd
    have h2 : r % m = r := Int.emod_eq_of_lt (by omega) (by omega)
    omega

theorem modNorm_nonneg (a : Int) {m : Int} (hm : 0 < m) : 0 ≤ modNorm a m := by
  rw [modNorm_eq_emod a hm]
  exact Int.emod_nonneg a (ne_of_gt hm)

theorem modNorm_lt (a : Int) {m : Int} (hm : 0 < m) : modNorm a m < m := by
  rw [modNorm_eq_emod a hm]
  exact Int.emod_lt_of_pos a hm

/-- gcd is invariant under subtracting a multiple of the first argument. -/
theorem int_gcd_sub_mul (a b q : Int) : Int.gcd b (a - q * b) = Int.gcd a b := by
  apply Nat.dvd_antisymm
  · have h1 : ((Int.gcd b (a - q * b) : Nat) : Int) ∣ b := Int.gcd_dvd_left
    have h2 : ((Int.gcd b (a - q * b) : Nat) : Int) ∣ (a - q * b) := Int.gcd_dvd_right
    have h3 : ((Int.gcd b (a - q * b) : Nat) : Int) ∣ a := by
      have h4 := dvd_add h2 (Dvd.dvd.mul_left h1 q)
      simpa using h4
    exact Int.natCast_dvd_natCast.mp (Int.dvd_gcd h3 h1)
  · have h1 : ((Int.gcd a b : Nat) : Int) ∣ a := Int.gcd_dvd_left
    have h2 : ((Int.gcd a b : Nat) : Int) ∣ b := Int.gcd_dvd_right
    have h3 : ((Int.gcd a b : Nat) : Int) ∣ (a - q * b) :=
      dvd_sub h1 (Dvd.dvd.mul_left h2 q)
    exact Int.natCast_dvd_natCast.mp (Int.dvd_gcd h2 h3)

/-- Full specification of the `egcd` loop on non-negative inputs: with
sufficient fuel it computes the gcd, and its output coefficients turn any
linear representations of the two loop arguments into one of the gcd. -/
theorem egcdAux_spec :
    ∀ (fuel : Nat) (a b x0 y0 x1 y1 A B : Int),
      b.natAbs < fuel → 0 ≤ a → 0 ≤ b →
      x0 * A + y0 * B = a → x1 * A + y1 * B = b →
      (egcdAux fuel a b x0 y0 x1 y1).g = (Int.gcd a b : Int) ∧
        (egcdAux fuel a b x0 y0 x1 y1).x * A + (egcdAux fuel a b x0 y0 x1 y1).y * B =
          (Int.gcd a b : Int) := by
  intro fuel
  induction fuel with
  | zero => intro a b x0 y0 x1 y1 A B hfuel _ _ _ _; omega
  | succ n ih =>
    intro a b x0 y0 x1 y1 A B hfuel ha hb h0 h1
    by_cases hb0 : b = 0
    · subst hb0
      simp only [egcdAux, if_pos rfl]
      constructor
      · simp [Int.gcd_zero_right, Int.natAbs_of_nonneg ha]
      · simp only [Int.gcd_zero_right]
        rw [Int.natAbs_of_nonneg ha] at *
        simpa using h0
    · have hbpos : 0 < b := lt_of_le_of_ne hb (Ne.symm hb0)
      have hstep : egcdAux (n + 1) a b x0 y0 x1 y1 =
          egcdAux n b (a - a.tdiv b * b) x1 y1 (x0 - a.tdiv b * x1) (y0 - a.tdiv b * y1) := by
        simp only [egcdAux, if_neg hb0]
      have hrem : a - a.tdiv b * b = Int.tmod a b := by
        rw [Int.tmod_def]; ring
      have hremnn : 0 ≤ a - a.tdiv b * b := by rw [hrem]; exact Int.tmod_nonneg b ha
      have hremlt : (a - a.tdiv b * b).natAbs < n := by
        have h2 : a - a.tdiv b * b < b := by rw [hrem]; exact Int.tmod_lt_of_pos a hbpos
        have h3 : (a - a.tdiv b * b).natAbs < b.natAbs :=
          Int.natAbs_lt_natAbs_of_nonneg_of_lt hremnn h2
        omega
      have hcomb : (x0 - a.tdiv b * x1) * A + (y0 - a.tdiv b * y1) * B = a - a.tdiv b * b := by
        have : (x0 - a.tdiv b * x1) * A + (y0 - a.tdiv b * y1) * B =
            (x0 * A + y0 * B) - a.tdiv b * (x1 * A + y1 * B) := by ring
        rw [this, h0, h1]
      have hgcd : Int.gcd b (a - a.tdiv b * b) = Int.gcd a b := int_gcd_sub_mul a b (a.tdiv b)
      rw [hstep]
      have := ih b (a - a.tdiv b * b) x1 y1 (x0 - a.tdiv b * x1) (y0 - a.tdiv b * y1) A B
        hremlt hb hremnn h1 hcomb
      rw [hgcd] at this
      exact this

/-- The `g` field of `egcd` on non-negative inputs is the gcd. -/
theorem egcd_g_eq_gcd {a b : Int} (ha : 0 ≤ a) (hb : 0 ≤ b) :
    (egcd a b).g = (Int.gcd a b : Int) :=
  (egcdAux_spec (b.natAbs + 1) a b 1 0 0 1 a b (by omega) ha hb (by ring) (by ring)).1

/-- Bézout identity for `egcd` on non-negative inputs. -/
theorem egcd_bezout {a b : Int} (ha : 0 ≤ a) (hb : 0 ≤ b) :
    (egcd a b).x * a + (egcd a b).y * b = (Int.gcd a b : Int) :=
  (egcdAux_spec (b.natAbs + 1) a b 1 0 0 1 a b (by omega) ha hb (by ring) (by ring)).2

theorem int_gcd_natAbs_natAbs (a n : Int) :
    Int.gcd (a.natAbs : Int) (n.natAbs : Int) = Int.gcd a n := by
  simp [Int.gcd_def, Int.natAbs_abs]

theorem int_gcd_emod_left (a n : Int) : Int.gcd (a % n) n = Int.gcd a n := by
  have h : a % n = a - (a / n) * n := by rw [Int.emod_def]; ring
  rw [Int.gcd_comm, h]
  exact int_gcd_sub_mul a n (a / n)

/-- Value of `modInv` on a non-negative argument and positive modulus with
gcd 1: it returns the remainder of the Bézout coefficient. -/
theorem modInv_eq_some {c m : Int} (hc : 0 ≤ c) (hm : 0 < m)
    (hcop : Int.gcd c m = 1) :
    modInv c m = some ((egcd c m).x % m) := by
  have hg : (egcd c m).g = (1 : Int) := by
    rw [egcd_g_eq_gcd hc hm.le, hcop]
    norm_num
  unfold modInv
  rw [if_neg (by simp [hg])]
  rw [modNorm_eq_emod _ hm]

theorem modInv_mul_modEq {c m : Int} (hc : 0 ≤ c) (hm : 0 < m)
    (hcop : Int.gcd c m = 1) :
    c * ((egcd c m).x % m) ≡ 1 [ZMOD m] := by
  have hbez : (egcd c m).x * c + (egcd c m).y * m = (1 : Int) := by
    have := egcd_bezout hc hm.le
    rw [hcop] at this
    simpa using this
  have h1 : (egcd c m).x % m ≡ (egcd c m).x [ZMOD m] := Int.mod_modEq _ _
  have h2 : c * ((egcd c m).x % m) ≡ c * (egcd c m).x [ZMOD m] := h1.mul_left c
  refine h2.trans ?_
  rw [Int.modEq_iff_dvd]
  refine ⟨(egcd c m).y, ?_⟩
  linarith [hbez]

/-- C7: for every `a`, `b` and `n ≥ 1`, `solveLinearCongruence(a,b,n)` reports
no solution iff `gcd(|a|,|n|)` does not divide `b`, and any reported base
solution `x₀` satisfies `modNorm(a*x₀ - b, n) = 0`, i.e. really solves
`a·x ≡ b (mod n)`. -/
theorem c7_solveLinearCongruence_spec (a b n : Int) (hn : 1 ≤ n) :
    ((solveLinearCongruence a b n).hasSolution = false ↔ ¬ ((Int.gcd a n : Int) ∣ b)) ∧
    ∀ x0, (solveLinearCongruence a b n).x0 = some x0 → modNorm (a * x0 - b) n = 0 := by
  have hnpos : (0 : Int) < n := by omega
  have hGpos : 0 < Int.gcd a n := Int.gcd_pos_of_ne_zero_right a (by omega)
  have hGIpos : (0 : Int) < (Int.gcd a n : Int) := by exact_mod_cast hGpos
  have hg : (egcd (a.natAbs : Int) (n.natAbs : Int)).g = (Int.gcd a n : Int) := by
    rw [egcd_g_eq_gcd (Int.natCast_nonneg _) (Int.natCast_nonneg _), int_gcd_natAbs_natAbs]
  by_cases hdvd : ((Int.gcd a n : Int) ∣ b)
  · -- a solution is produced and it solves the congruence
    obtain ⟨ka, hka⟩ := Int.gcd_dvd_left (a := a) (b := n)
    obtain ⟨kb, hkb⟩ := hdvd
    obtain ⟨kn, hkn⟩ := Int.gcd_dvd_right (a := a) (b := n)
    set G : Int := (Int.gcd a n : Int) with hGdef
    have hdvd2 : G ∣ b := ⟨kb, hkb⟩
    have hGne : G ≠ 0 := by omega
    have hknpos : 0 < kn := by
      rcases lt_trichotomy kn 0 with h | h | h
      · nlinarith
      · rw [h, mul_zero] at hkn; omega
      · exact h
    have hknne : kn ≠ 0 := by omega
    have hdivA : a.tdiv G = ka := by rw [hka]; exact Int.mul_tdiv_cancel_left ka hGne
    have hdivB : b.tdiv G = kb := by rw [hkb]; exact Int.mul_tdiv_cancel_left kb hGne
    have hdivN : n.tdiv G = kn := by rw [hkn]; exact Int.mul_tdiv_cancel_left kn hGne
    have hknabs : ((kn.natAbs : Nat) : Int) = kn := Int.natAbs_of_nonneg hknpos.le
    have hcop : Int.gcd ka kn = 1 := by
      have h1 : Int.gcd a n = G.natAbs * Int.gcd ka kn := by
        conv_lhs => rw [hka, hkn]
        exact Int.gcd_mul_left G ka kn
      have h2 : G.natAbs = Int.gcd a n := by rw [hGdef]; exact Int.natAbs_ofNat _
      rw [h2] at h1
      have h3 : Int.gcd a n * 1 = Int.gcd a n * Int.gcd ka kn := by
        rw [mul_one]; exact h1
      exact (Nat.eq_of_mul_eq_mul_left hGpos h3).symm
    have htm0 : Int.tmod b G = 0 := by rw [hkb]; exact Int.mul_tmod_right G kb
    have hcop2 : Int.gcd (ka % kn) kn = 1 := by rw [int_gcd_emod_left]; exact hcop
    have hmodinv : modInv (ka % kn) kn = some ((egcd (ka % kn) kn).x % kn) :=
      modInv_eq_some (Int.emod_nonneg ka hknne) hknpos hcop2
    set inv : Int := (egcd (ka % kn) kn).x % kn with hinvdef
    have hres : solveLinearCongruence a b n =
        ⟨true, some (modNorm (inv * kb) kn), some kn⟩ := by
      simp only [solveLinearCongruence]
      rw [hg, if_neg hGne, if_neg (by simp [htm0])]
      rw [hdivA, hdivB, hdivN, hknabs]
      rw [modNorm_eq_emod ka hknpos]
      rw [hmodinv]
    refine ⟨by rw [hres]; simp [hdvd2], ?_⟩
    intro x0 hx0
    rw [hres] at hx0
    have hx0v : x0 = modNorm (inv * kb) kn := by
      simpa using hx0.symm
    subst hx0v
    rw [modNorm_eq_emod _ hnpos]
    apply Int.emod_eq_zero_of_dvd
    rw [modNorm_eq_emod _ hknpos]
    have hcong : ka * ((inv * kb) % kn) ≡ kb [ZMOD kn] := by
      have h1 : (inv * kb) % kn ≡ inv * kb [ZMOD kn] := Int.mod_modEq _ _
      have h2 : ka * ((inv * kb) % kn) ≡ ka * (inv * kb) [ZMOD kn] := h1.mul_left ka
      have h3 : ka ≡ ka % kn [ZMOD kn] := (Int.mod_modEq ka kn).symm
      have h4 : ka * inv ≡ (ka % kn) * inv [ZMOD kn] := h3.mul (Int.ModEq.refl inv)
      have h5 : (ka % kn) * inv ≡ 1 [ZMOD kn] :=
        modInv_mul_modEq (Int.emod_nonneg ka hknne) hknpos hcop2
      have h6 : ka * inv ≡ 1 [ZMOD kn] := h4.trans h5
      have h7 : ka * inv * kb ≡ 1 * kb [ZMOD kn] := h6.mul (Int.ModEq.refl kb)
      calc ka * ((inv * kb) % kn) ≡ ka * (inv * kb) [ZMOD kn] := h2
        _ = ka * inv * kb := by ring
        _ ≡ 1 * kb [ZMOD kn] := h7
        _ = kb := by ring
    obtain ⟨t, ht⟩ := hcong.dvd
    rw [hka, hkb, hkn]
    exact ⟨-t, by linear_combination (-G) * ht⟩
  · -- no solution is reported
    have htm : Int.tmod b (Int.gcd a n : Int) ≠ 0 := by
      intro h0
      exact hdvd (Int.dvd_iff_tmod_eq_zero.mpr h0)
    have hres : solveLinearCongruence a b n = ⟨false, none, none⟩ := by
      simp only [solveLinearCongruence]
      rw [hg, if_neg (by omega), if_pos htm]
    refine ⟨by rw [hres]; simpa using hdvd, ?_⟩
    intro x0 hx0
    rw [hres] at hx0
    simp at hx0

/-! ## Lemmas on the closure and reduction engines -/

section RelationLemmas

variable {α : Type} [DecidableEq α]

theorem mem_addPair (res : List (α × α)) (p q : α × α) :
    q ∈ addPair res p ↔ q ∈ res ∨ q = p := by
  unfold addPair
  by_cases h : p ∈ res
  · rw [if_pos h]
    constructor
    · exact Or.inl
    · rintro (hq | rfl)
      · exact hq
      · exact h
  · rw [if_neg h]
    simp [List.mem_append]

theorem mem_foldl_addPair (l : List α) (a : α) (res : List (α × α)) (q : α × α) :
    q ∈ l.foldl (fun r v => addPair r (a, v)) res ↔ q ∈ res ∨ ∃ v ∈ l, q = (a, v) := by
  induction l generalizing res with
  | nil => simp
  | cons x xs ih =>
    simp only [List.foldl_cons]
    rw [ih, mem_addPair]
    simp only [List.mem_cons]
    constructor
    · rintro ((hq | rfl) | ⟨v, hv, rfl⟩)
      · exact Or.inl hq
      · exact Or.inr ⟨x, Or.inl rfl, rfl⟩
      · exact Or.inr ⟨v, Or.inr hv, rfl⟩
    · rintro (hq | ⟨v, hv | hv, rfl⟩)
      · exact Or.inl (Or.inl hq)
      · subst hv; exact Or.inl (Or.inr rfl)
      · exact Or.inr ⟨v, hv, rfl⟩

theorem mem_closurePairsFor (covers : List (α × α)) (res : List (α × α)) (a : α)
    (q : α × α) :
    q ∈ closurePairsFor covers res a ↔
      q ∈ res ∨ q = (a, a) ∨ ∃ v ∈ dfsFrom covers a, q = (a, v) := by
  unfold closurePairsFor
  rw [mem_foldl_addPair, mem_addPair]
  tauto

theorem mem_foldl_closurePairsFor (U : List α) (covers : List (α × α))
    (res : List (α × α)) (q : α × α) :
    q ∈ U.foldl (closurePairsFor covers) res ↔
      q ∈ res ∨ ∃ a ∈ U, q = (a, a) ∨ ∃ v ∈ dfsFrom covers a, q = (a, v) := by
  induction U generalizing res with
  | nil => simp
  | cons x xs ih =>
    simp only [List.foldl_cons]
    rw [ih, mem_closurePairsFor]
    simp only [List.mem_cons]
    constructor
    · rintro ((hq | hq) | ⟨a, ha, hq⟩)
      · exact Or.inl hq
      · exact Or.inr ⟨x, Or.inl rfl, hq⟩
      · exact Or.inr ⟨a, Or.inr ha, hq⟩
    · rintro (hq | ⟨a, ha | ha, hq⟩)
      · exact Or.inl (Or.inl hq)
      · subst ha; exact Or.inl (Or.inr hq)
      · exact Or.inr ⟨a, ha, hq⟩

/-- Membership characterization of the closure output: the pairs are exactly
`(a, a)` for `a ∈ U` together with `(a, v)` for `a ∈ U` and `v` visited by
the depth-first search from `a`. -/
theorem mem_transClosure_iff (U : List α) (covers : List (α × α)) (x y : α) :
    (x, y) ∈ transitiveClosureFromCovers U covers ↔
      x ∈ U ∧ (y = x ∨ y ∈ dfsFrom covers x) := by
  unfold transitiveClosureFromCovers
  rw [mem_foldl_closurePairsFor]
  simp only [List.not_mem_nil, false_or, Prod.mk.injEq]
  constructor
  · rintro ⟨a, ha, ⟨rfl, rfl⟩ | ⟨v, hv, rfl, rfl⟩⟩
    · exact ⟨ha, Or.inl rfl⟩
    · exact ⟨ha, Or.inr hv⟩
  · rintro ⟨hx, hy | hy⟩
    · exact ⟨x, hx, Or.inl ⟨rfl, hy⟩⟩
    · exact ⟨x, hx, Or.inr ⟨y, hy, rfl, rfl⟩⟩

/-- Membership characterization of `coversFromRelation`. -/
theorem mem_coversFromRelation (U : List α) (relPairs relSet : List (α × α)) (p : α × α) :
    p ∈ coversFromRelation U relPairs relSet ↔
      p ∈ relPairs ∧ p.1 ≠ p.2 ∧ p.1 ∈ U ∧ p.2 ∈ U ∧
        ∀ c ∈ U, c ≠ p.1 → c ≠ p.2 → ¬((p.1, c) ∈ relSet ∧ (c, p.2) ∈ relSet) := by
  unfold coversFromRelation isCoverPair
  rw [List.mem_filter]
  simp only [Bool.and_eq_true, decide_eq_true_eq, List.all_eq_true, Bool.or_eq_true,
    Bool.not_eq_true', Bool.and_eq_false_iff, decide_eq_false_iff_not]
  constructor
  · rintro ⟨hmem, ⟨⟨hne, hU1⟩, hU2⟩, hall⟩
    refine ⟨hmem, hne, hU1, hU2, fun c hc => ?_⟩
    have h := hall c hc
    tauto
  · rintro ⟨hmem, hne, hU1, hU2, hall⟩
    refine ⟨hmem, ⟨⟨hne, hU1⟩, hU2⟩, fun c hc => ?_⟩
    have h := hall c hc
    tauto

end RelationLemmas

section ReflexiveLemmas

variable {α : Type} [DecidableEq α]

theorem reflexiveCheck_true_iff (U : List α) (S : List (α × α)) :
    reflexiveCheck U S = true ↔ ∀ y ∈ U, (y, y) ∈ S := by
  unfold reflexiveCheck reflexiveMissing
  rw [Option.isNone_iff_eq_none, List.find?_eq_none]
  simp

theorem reflexiveMissing_filter_diag (U : List α) (R : List (α × α)) (x : α)
    (hx : x ∈ U) (hall : ∀ y ∈ U, (y, y) ∈ R) :
    reflexiveMissing U (R.filter (fun p => decide (p ≠ (x, x)))) = some x := by
  induction U with
  | nil => cases hx
  | cons u us ih =>
    unfold reflexiveMissing
    by_cases hux : u = x
    · subst hux
      rw [List.find?_cons_of_pos]
      simp [List.mem_filter]
    · rw [List.find?_cons_of_neg]
      · have hx' : x ∈ us := by
          rcases List.mem_cons.mp hx with h | h
          · exact absurd h.symm hux
          · exact h
        have hall' : ∀ y ∈ us, (y, y) ∈ R := fun y hy => hall y (List.mem_cons_of_mem _ hy)
        exact ih hx' hall'
      · have huR : (u, u) ∈ R := hall u (List.mem_cons_self _ _)
        simp [List.mem_filter, huR, Prod.ext_iff, hux]

end ReflexiveLemmas

/-! ## Specification of the depth-first search inside the closure -/

section DfsLemmas

variable {α : Type} [DecidableEq α]

theorem mem_adjList (covers : List (α × α)) (v w : α) :
    w ∈ adjList covers v ↔ (v, w) ∈ covers := by
  unfold adjList
  simp only [List.mem_map, List.mem_filter, decide_eq_true_eq]
  constructor
  · rintro ⟨p, ⟨hpc, hp1⟩, hp2⟩
    have hp : p = (v, w) := Prod.ext hp1 hp2
    rwa [hp] at hpc
  · intro hvw
    exact ⟨(v, w), ⟨hvw, rfl⟩, rfl⟩

theorem adjList_length_le (covers : List (α × α)) (v : α) :
    (adjList covers v).length ≤ covers.length := by
  unfold adjList
  rw [List.length_map]
  exact List.length_filter_le _ _

theorem adjList_subset_pool (covers : List (α × α)) (v w : α)
    (h : w ∈ adjList covers v) : w ∈ covers.map Prod.snd := by
  unfold adjList at h
  simp only [List.mem_map, List.mem_filter, decide_eq_true_eq] at h ⊢
  obtain ⟨p, ⟨hp, _⟩, hw⟩ := h
  exact ⟨p, hp, hw⟩

/-- Everything the search visits satisfies any property that holds on the
initial stack and is preserved along adjacency. -/
theorem dfsAux_sound (covers : List (α × α)) (P : α → Prop)
    (hadj : ∀ v w, P v → w ∈ adjList covers v → P w) :
    ∀ (fuel : Nat) (vis st : List α), (∀ v ∈ vis, P v) → (∀ v ∈ st, P v) →
      ∀ v ∈ dfsAux covers fuel vis st, P v := by
  intro fuel
  induction fuel with
  | zero =>
    intro vis st hvis _ v hv
    exact hvis v (by simpa [dfsAux] using hv)
  | succ n ih =>
    intro vis st hvis hst v hv
    cases st with
    | nil => exact hvis v (by simpa [dfsAux] using hv)
    | cons x xs =>
      by_cases hx : x ∈ vis
      · rw [show dfsAux covers (n + 1) vis (x :: xs) = dfsAux covers n vis xs by
          simp [dfsAux, hx]] at hv
        exact ih vis xs hvis (fun y hy => hst y (List.mem_cons_of_mem _ hy)) v hv
      · rw [show dfsAux covers (n + 1) vis (x :: xs) =
            dfsAux covers n (x :: vis)
              (((adjList covers x).filter fun w => decide (w ∉ x :: vis)) ++ xs) by
          simp [dfsAux, hx]] at hv
        have hPx : P x := hst x (List.mem_cons_self _ _)
        refine ih (x :: vis) _ ?_ ?_ v hv
        · intro y hy
          rcases List.mem_cons.mp hy with rfl | hy'
          · exact hPx
          · exact hvis y hy'
        · intro y hy
          rcases List.mem_append.mp hy with hy' | hy'
          · exact hadj x y hPx (List.mem_filter.mp hy').1
          · exact hst y (List.mem_cons_of_mem _ hy')

omit [DecidableEq α] in
theorem length_filter_mono_pred (l : List α) (p q : α → Bool)
    (h : ∀ x, p x = true → q x = true) :
    (l.filter p).length ≤ (l.filter q).length := by
  induction l with
  | nil => simp
  | cons y ys ih =>
    simp only [List.filter_cons]
    by_cases hp : p y = true
    · rw [if_pos hp, if_pos (h y hp)]
      simpa using ih
    · rw [if_neg hp]
      split
      · exact le_trans ih (by simp)
      · exact ih

theorem length_filter_cons_lt {l : List α} {v : α} (vis : List α)
    (hvl : v ∈ l) (hvvis : v ∉ vis) :
    (l.filter fun x => decide (x ∉ v :: vis)).length + 1 ≤
      (l.filter fun x => decide (x ∉ vis)).length := by
  have hmono : ∀ zs : List α, (zs.filter fun x => decide (x ∉ v :: vis)).length ≤
      (zs.filter fun x => decide (x ∉ vis)).length := by
    intro zs
    apply length_filter_mono_pred
    intro x hx
    simp only [decide_eq_true_eq, List.mem_cons] at hx ⊢
    tauto
  induction l with
  | nil => cases hvl
  | cons y ys ih =>
    rcases List.mem_cons.mp hvl with rfl | hy
    · simp only [List.filter_cons]
      rw [if_neg (by simp only [decide_eq_true_eq]; exact fun hc => hc (List.mem_cons_self _ _)),
        if_pos (by simp only [decide_eq_true_eq]; exact hvvis)]
      have := hmono ys
      simp only [List.length_cons]
      omega
    · simp only [List.filter_cons]
      have ih' := ih hy
      by_cases h1 : y ∈ v :: vis
      · rw [if_neg (by simp only [decide_eq_true_eq]; exact fun hc => hc h1)]
        by_cases h2 : y ∈ vis
        · rw [if_neg (by simp only [decide_eq_true_eq]; exact fun hc => hc h2)]
          exact ih'
        · rw [if_pos (by simp only [decide_eq_true_eq]; exact h2)]
          simp only [List.length_cons]
          omega
      · have h2 : y ∉ vis := fun hc => h1 (List.mem_cons_of_mem _ hc)
        rw [if_pos (by simp only [decide_eq_true_eq]; exact h1),
          if_pos (by simp only [decide_eq_true_eq]; exact h2)]
        simp only [List.length_cons]
        omega

/-- With enough fuel the search finishes its stack: the result contains the
visited set and the whole stack, and is closed under adjacency away from the
initial visited set. -/
theorem dfsAux_complete (covers : List (α × α)) :
    ∀ (fuel : Nat) (vis st : List α),
      (covers.length + 1) *
          ((covers.map Prod.snd).filter fun x => decide (x ∉ vis)).length
          + st.length ≤ fuel →
      (∀ x ∈ st, x ∈ covers.map Prod.snd) →
      (∀ v ∈ vis, v ∈ dfsAux covers fuel vis st) ∧
      (∀ v ∈ st, v ∈ dfsAux covers fuel vis st) ∧
      (∀ v ∈ dfsAux covers fuel vis st, v ∉ vis →
        ∀ w ∈ adjList covers v, w ∈ dfsAux covers fuel vis st) := by
  intro fuel
  induction fuel with
  | zero =>
    intro vis st hm _
    have hstnil : st = [] := by
      cases st with
      | nil => rfl
      | cons x xs => simp at hm
    subst hstnil
    refine ⟨fun v hv => by simpa [dfsAux] using hv,
      fun v hv => absurd hv (List.not_mem_nil v), ?_⟩
    intro v hv hnv w _
    exact absurd (by simpa [dfsAux] using hv) hnv
  | succ n ih =>
    intro vis st hm hst
    cases st with
    | nil =>
      refine ⟨fun v hv => by simpa [dfsAux] using hv,
        fun v hv => absurd hv (List.not_mem_nil v), ?_⟩
      intro v hv hnv w _
      exact absurd (by simpa [dfsAux] using hv) hnv
    | cons x xs =>
      by_cases hx : x ∈ vis
      · have hstep : dfsAux covers (n + 1) vis (x :: xs) = dfsAux covers n vis xs := by
          simp [dfsAux, hx]
        have hm' : (covers.length + 1) *
            ((covers.map Prod.snd).filter fun y => decide (y ∉ vis)).length
            + xs.length ≤ n := by
          simp only [List.length_cons] at hm
          omega
        obtain ⟨h1, h2, h3⟩ := ih vis xs hm' (fun y hy => hst y (List.mem_cons_of_mem _ hy))
        rw [hstep]
        refine ⟨h1, ?_, h3⟩
        intro v hv
        rcases List.mem_cons.mp hv with rfl | hv'
        · exact h1 v hx
        · exact h2 v hv'
      · have hstep : dfsAux covers (n + 1) vis (x :: xs) =
            dfsAux covers n (x :: vis)
              (((adjList covers x).filter fun w => decide (w ∉ x :: vis)) ++ xs) := by
          simp [dfsAux, hx]
        have hxpool : x ∈ covers.map Prod.snd := hst x (List.mem_cons_self _ _)
        have hdec := length_filter_cons_lt (l := covers.map Prod.snd) vis hxpool hx
        have hflen : ((adjList covers x).filter fun w => decide (w ∉ x :: vis)).length
            ≤ covers.length :=
          le_trans (List.length_filter_le _ _) (adjList_length_le covers x)
        have hm' : (covers.length + 1) *
            ((covers.map Prod.snd).filter fun y => decide (y ∉ x :: vis)).length
            + (((adjList covers x).filter fun w => decide (w ∉ x :: vis)) ++ xs).length
            ≤ n := by
          rw [List.length_append]
          have hKmul : (covers.length + 1) *
              ((covers.map Prod.snd).filter fun y => decide (y ∉ x :: vis)).length
              + (covers.length + 1) ≤ (covers.length + 1) *
              ((covers.map Prod.snd).filter fun y => decide (y ∉ vis)).length := by
            calc (covers.length + 1) *
                ((covers.map Prod.snd).filter fun y => decide (y ∉ x :: vis)).length
                + (covers.length + 1)
                = (covers.length + 1) *
                  (((covers.map Prod.snd).filter fun y => decide (y ∉ x :: vis)).length + 1) := by
                  ring
              _ ≤ (covers.length + 1) *
                  ((covers.map Prod.snd).filter fun y => decide (y ∉ vis)).length :=
                  Nat.mul_le_mul_left _ hdec
          simp only [List.length_cons] at hm
          omega
        have hsub' : ∀ y ∈ ((adjList covers x).filter fun w => decide (w ∉ x :: vis)) ++ xs,
            y ∈ covers.map Prod.snd := by
          intro y hy
          rcases List.mem_append.mp hy with hy' | hy'
          · exact adjList_subset_pool covers x y (List.mem_filter.mp hy').1
          · exact hst y (List.mem_cons_of_mem _ hy')
        obtain ⟨h1, h2, h3⟩ := ih (x :: vis) _ hm' hsub'
        rw [hstep]
        refine ⟨?_, ?_, ?_⟩
        · exact fun v hv => h1 v (List.mem_cons_of_mem _ hv)
        · intro v hv
          rcases List.mem_cons.mp hv with rfl | hv'
          · exact h1 v (List.mem_cons_self _ _)
          · exact h2 v (List.mem_append_right _ hv')
        · intro v hv hnvis w hw
          by_cases hvx : v = x
          · subst hvx
            by_cases hwvis : w ∈ v :: vis
            · exact h1 w hwvis
            · have hwf : w ∈ (adjList covers v).filter fun u => decide (u ∉ v :: vis) :=
                List.mem_filter.mpr ⟨hw, by simpa using hwvis⟩
              exact h2 w (List.mem_append_left _ hwf)
          · exact h3 v hv (by simp [List.mem_cons, hvx, hnvis]) w hw

end DfsLemmas

section DfsFromLemmas

variable {α : Type} [DecidableEq α]

theorem dfsFrom_spec (covers : List (α × α)) (a : α) :
    (∀ w ∈ adjList covers a, w ∈ dfsFrom covers a) ∧
    (∀ v ∈ dfsFrom covers a, ∀ w ∈ adjList covers v, w ∈ dfsFrom covers a) := by
  have hpool : ((covers.map Prod.snd).filter fun x =>
      decide (x ∉ ([] : List α))).length = covers.length := by
    rw [List.filter_eq_self.mpr (by intro y _; simp), List.length_map]
  have hm : (covers.length + 1) *
      ((covers.map Prod.snd).filter fun x => decide (x ∉ ([] : List α))).length
      + (adjList covers a).length ≤ (covers.length + 1) * (covers.length + 1) := by
    rw [hpool]
    have h1 := adjList_length_le covers a
    have h2 : (covers.length + 1) * (covers.length + 1) =
        (covers.length + 1) * covers.length + covers.length + 1 := by ring
    omega
  obtain ⟨_, h2, h3⟩ := dfsAux_complete covers ((covers.length + 1) * (covers.length + 1))
    [] (adjList covers a) hm (fun y hy => adjList_subset_pool covers a y hy)
  exact ⟨h2, fun v hv w hw => h3 v hv (List.not_mem_nil v) w hw⟩

omit [DecidableEq α] in
theorem pathIn_snoc {E : α → α → Prop} {x y z : α} {l : List α}
    (hp : PathIn E x l y) (hz : E y z) : PathIn E x (l ++ [y]) z := by
  induction hp with
  | single h => exact PathIn.cons h (PathIn.single hz)
  | cons h _ ih => exact PathIn.cons h (ih hz)

omit [DecidableEq α] in
theorem pathIn_append {E : α → α → Prop} {x y z : α} {l₁ l₂ : List α}
    (h1 : PathIn E x l₁ y) (h2 : PathIn E y l₂ z) :
    PathIn E x (l₁ ++ y :: l₂) z := by
  induction h1 with
  | single h => exact PathIn.cons h h2
  | cons h _ ih => exact PathIn.cons h (ih h2)

omit [DecidableEq α] in
theorem pathIn_split {E : α → α → Prop} {x y c : α} {l : List α}
    (hp : PathIn E x l y) (hc : c ∈ l) :
    ∃ l₁ l₂, l = l₁ ++ c :: l₂ ∧ PathIn E x l₁ c ∧ PathIn E c l₂ y := by
  induction hp with
  | single _ => cases hc
  | cons h hp' ih =>
    rename_i a d b l'
    rcases List.mem_cons.mp hc with rfl | hc'
    · exact ⟨[], l', rfl, PathIn.single h, hp'⟩
    · obtain ⟨l₁, l₂, rfl, hpa, hpb⟩ := ih hc'
      exact ⟨d :: l₁, l₂, rfl, PathIn.cons h hpa, hpb⟩

/-- The depth-first search from `a` visits exactly the nodes reachable from
`a` by a nonempty path of cover edges. -/
theorem mem_dfsFrom_iff (covers : List (α × α)) (a y : α) :
    y ∈ dfsFrom covers a ↔ ∃ l, PathIn (edgeOf covers) a l y := by
  constructor
  · intro hy
    refine dfsAux_sound covers (fun v => ∃ l, PathIn (edgeOf covers) a l v) ?_
      _ [] (adjList covers a) (fun v hv => absurd hv (List.not_mem_nil v)) ?_ y hy
    · rintro v w ⟨l, hp⟩ hw
      exact ⟨l ++ [v], pathIn_snoc hp ((mem_adjList covers v w).mp hw)⟩
    · intro v hv
      exact ⟨[], PathIn.single ((mem_adjList covers a v).mp hv)⟩
  · rintro ⟨l, hp⟩
    obtain ⟨hstart, hclosed⟩ := dfsFrom_spec covers a
    have haux : ∀ (x : α) (l' : List α) (z : α), PathIn (edgeOf covers) x l' z →
        (x = a ∨ x ∈ dfsFrom covers a) → z ∈ dfsFrom covers a := by
      intro x l' z hp'
      induction hp' with
      | single h =>
        rintro (rfl | hx)
        · exact hstart _ ((mem_adjList covers _ _).mpr h)
        · exact hclosed _ hx _ ((mem_adjList covers _ _).mpr h)
      | cons h _ ih =>
        rintro (rfl | hx)
        · exact ih (Or.inr (hstart _ ((mem_adjList covers _ _).mpr h)))
        · exact ih (Or.inr (hclosed _ hx _ ((mem_adjList covers _ _).mpr h)))
    exact haux a l y hp (Or.inl rfl)

/-- Full spec-level characterization of the closure output. -/
theorem mem_transClosure_path (U : List α) (covers : List (α × α)) (x y : α) :
    (x, y) ∈ transitiveClosureFromCovers U covers ↔
      x ∈ U ∧ (y = x ∨ ∃ l, PathIn (edgeOf covers) x l y) := by
  rw [mem_transClosure_iff, mem_dfsFrom_iff]

end DfsFromLemmas

section RoundTripLemmas

variable {α : Type} [DecidableEq α]

omit [DecidableEq α] in
/-- In an acyclic cover graph the interior vertices of a path differ from
both endpoints. -/
theorem acyclic_interior_ne {covers : List (α × α)} (hacyc : AcyclicCovers covers)
    {x y c : α} {l : List α} (hp : PathIn (edgeOf covers) x l y) (hc : c ∈ l) :
    c ≠ x ∧ c ≠ y := by
  obtain ⟨l₁, l₂, rfl, hpa, hpb⟩ := pathIn_split hp hc
  constructor
  · rintro rfl
    exact hacyc _ _ hpa
  · rintro rfl
    exact hacyc _ _ hpb

omit [DecidableEq α] in
/-- A path whose source never reappears uses no edge out of that source. -/
theorem pathIn_avoid_of_not_mem {covers : List (α × α)} {a b x y : α} {l : List α}
    (hp : PathIn (edgeOf covers) x l y) (ha : a ∉ x :: l) :
    PathIn (fun u v => (u, v) ∈ covers ∧ (u, v) ≠ (a, b)) x l y := by
  induction hp with
  | single h =>
    refine PathIn.single ⟨h, fun hcontr => ?_⟩
    injection hcontr with h1 _
    subst h1
    exact ha (List.mem_cons_self _ _)
  | @cons _ c _ l' h _ ih =>
    have ha' : a ∉ c :: l' := by
      intro hc
      exact ha (List.mem_cons_of_mem _ hc)
    refine PathIn.cons ⟨h, fun hcontr => ?_⟩ (ih ha')
    injection hcontr with h1 _
    subst h1
    exact ha (List.mem_cons_self _ _)

omit [DecidableEq α] in
/-- In an acyclic cover graph, a path of length ≥ 2 from `a` to `b` never
uses the edge `(a,b)` itself: it is a path through the other cover edges. -/
theorem pathIn_avoid {covers : List (α × α)} (hacyc : AcyclicCovers covers)
    {a b : α} {l : List α} (hp : PathIn (edgeOf covers) a l b) (hl : l ≠ []) :
    PathIn (fun u v => (u, v) ∈ covers ∧ (u, v) ≠ (a, b)) a l b := by
  cases hp with
  | single h => exact absurd rfl hl
  | @cons _ c _ l' h hp' =>
    have hcb : c ≠ b := by
      rintro rfl
      exact hacyc _ _ hp'
    have hanotin : a ∉ c :: l' := by
      intro hain
      rcases List.mem_cons.mp hain with rfl | hal'
      · exact hacyc a [] (PathIn.single h)
      · obtain ⟨l₁, l₂, _, hpa, _⟩ := pathIn_split hp' hal'
        exact hacyc a (c :: l₁) (PathIn.cons h hpa)
    refine PathIn.cons ⟨h, fun hcontr => ?_⟩ (pathIn_avoid_of_not_mem hp' hanotin)
    injection hcontr with _ h2
    exact hcb h2

end RoundTripLemmas

/-! ## Lemmas on the level-relaxation phase of `layoutHasse` -/

section LayoutLemmas

variable {α : Type} [DecidableEq α]

theorem lookupL_cons (k : α) (v : Nat) (rest : List (α × Nat)) (x : α) :
    lookupL ((k, v) :: rest) x = if x = k then some v else lookupL rest x := rfl

theorem lookupL_filter_ne (m : List (α × Nat)) (k k' : α) (h : k' ≠ k) :
    lookupL (m.filter fun p => decide (p.1 ≠ k)) k' = lookupL m k' := by
  induction m with
  | nil => rfl
  | cons p ps ih =>
    obtain ⟨pk, pv⟩ := p
    simp only [List.filter_cons]
    by_cases hpk : pk = k
    · rw [if_neg (by simp [hpk])]
      rw [ih, lookupL_cons]
      rw [if_neg (by rw [hpk]; exact h)]
    · rw [if_pos (by simp [hpk])]
      rw [lookupL_cons, lookupL_cons]
      by_cases hk' : k' = pk
      · rw [if_pos hk', if_pos hk']
      · rw [if_neg hk', if_neg hk']
        exact ih

theorem lookupL_mset_self (m : List (α × Nat)) (k : α) (v : Nat) :
    lookupL (mset m k v) k = some v := by
  unfold mset
  rw [lookupL_cons, if_pos rfl]

theorem lookupL_mset_ne (m : List (α × Nat)) (k k' : α) (v : Nat) (h : k' ≠ k) :
    lookupL (mset m k v) k' = lookupL m k' := by
  unfold mset
  rw [lookupL_cons, if_neg h]
  exact lookupL_filter_ne m k k' h

theorem relaxAll_cons_none (lv : Nat) (w : α) (ws : List α) (m : List (α × Nat))
    (q : List α) (h : lookupL m w = none) :
    relaxAll lv (w :: ws) m q = relaxAll lv ws (mset m w (lv + 1)) (q ++ [w]) := by
  simp only [relaxAll, h]

theorem relaxAll_cons_lt (lv : Nat) (w : α) (ws : List α) (m : List (α × Nat))
    (q : List α) (cur : Nat) (h : lookupL m w = some cur) (hlt : cur < lv + 1) :
    relaxAll lv (w :: ws) m q = relaxAll lv ws (mset m w (lv + 1)) (q ++ [w]) := by
  simp only [relaxAll, h]
  rw [if_pos (by omega)]

theorem relaxAll_cons_ge (lv : Nat) (w : α) (ws : List α) (m : List (α × Nat))
    (q : List α) (cur : Nat) (h : lookupL m w = some cur) (hge : lv + 1 ≤ cur) :
    relaxAll lv (w :: ws) m q = relaxAll lv ws m q := by
  simp only [relaxAll, h]
  rw [if_neg (by omega)]

/-- Levels never decrease and keys are never removed during relaxation. -/
theorem relaxAll_mono (lv : Nat) :
    ∀ (ws : List α) (m : List (α × Nat)) (q : List α) (x : α) (l : Nat),
      lookupL m x = some l →
      ∃ l', lookupL (relaxAll lv ws m q).1 x = some l' ∧ l ≤ l' := by
  intro ws
  induction ws with
  | nil => exact fun m q x l h => ⟨l, h, le_refl l⟩
  | cons w ws ih =>
    intro m q x l h
    rcases hlw : lookupL m w with _ | cur
    · rw [relaxAll_cons_none lv w ws m q hlw]
      by_cases hx : x = w
      · subst hx
        rw [h] at hlw
        cases hlw
      · obtain ⟨l', hl', hle⟩ := ih (mset m w (lv + 1)) (q ++ [w]) x l
          (by rw [lookupL_mset_ne m w x _ hx]; exact h)
        exact ⟨l', hl', hle⟩
    · by_cases hcur : cur < lv + 1
      · rw [relaxAll_cons_lt lv w ws m q cur hlw hcur]
        by_cases hx : x = w
        · subst hx
          rw [h] at hlw
          injection hlw with hlw'
          subst hlw'
          obtain ⟨l', hl', hle⟩ := ih (mset m x (lv + 1)) (q ++ [x]) x (lv + 1)
            (lookupL_mset_self m x (lv + 1))
          exact ⟨l', hl', by omega⟩
        · obtain ⟨l', hl', hle⟩ := ih (mset m w (lv + 1)) (q ++ [w]) x l
            (by rw [lookupL_mset_ne m w x _ hx]; exact h)
          exact ⟨l', hl', hle⟩
      · rw [relaxAll_cons_ge lv w ws m q cur hlw (by omega)]
        exact ih m q x l h

/-- The queue only grows during relaxation. -/
theorem relaxAll_q_sub (lv : Nat) :
    ∀ (ws : List α) (m : List (α × Nat)) (q : List α) (x : α),
      x ∈ q → x ∈ (relaxAll lv ws m q).2 := by
  intro ws
  induction ws with
  | nil => exact fun m q x h => h
  | cons w ws ih =>
    intro m q x h
    rcases hlw : lookupL m w with _ | cur
    · rw [relaxAll_cons_none lv w ws m q hlw]
      exact ih _ _ x (List.mem_append_left _ h)
    · by_cases hcur : cur < lv + 1
      · rw [relaxAll_cons_lt lv w ws m q cur hlw hcur]
        exact ih _ _ x (List.mem_append_left _ h)
      · rw [relaxAll_cons_ge lv w ws m q cur hlw (by omega)]
        exact ih m q x h

/-- New queue entries always carry a level in the updated map. -/
theorem relaxAll_q_new (lv : Nat) :
    ∀ (ws : List α) (m : List (α × Nat)) (q : List α) (x : α),
      x ∈ (relaxAll lv ws m q).2 →
      x ∈ q ∨ ((lookupL (relaxAll lv ws m q).1 x).isSome = true) := by
  intro ws
  induction ws with
  | nil => exact fun m q x h => Or.inl h
  | cons w ws ih =>
    intro m q x h
    rcases hlw : lookupL m w with _ | cur
    · rw [relaxAll_cons_none lv w ws m q hlw] at h ⊢
      rcases ih _ _ x h with hq | hs
      · rcases List.mem_append.mp hq with hq' | hq'
        · exact Or.inl hq'
        · refine Or.inr ?_
          have hx : x = w := by simpa using hq'
          subst hx
          obtain ⟨l', hl', _⟩ := relaxAll_mono lv ws (mset m x (lv + 1)) (q ++ [x]) x (lv + 1)
            (lookupL_mset_self m x (lv + 1))
          simp [hl']
      · exact Or.inr hs
    · by_cases hcur : cur < lv + 1
      · rw [relaxAll_cons_lt lv w ws m q cur hlw hcur] at h ⊢
        rcases ih _ _ x h with hq | hs
        · rcases List.mem_append.mp hq with hq' | hq'
          · exact Or.inl hq'
          · refine Or.inr ?_
            have hx : x = w := by simpa using hq'
            subst hx
            obtain ⟨l', hl', _⟩ := relaxAll_mono lv ws (mset m x (lv + 1)) (q ++ [x]) x (lv + 1)
              (lookupL_mset_self m x (lv + 1))
            simp [hl']
        · exact Or.inr hs
      · rw [relaxAll_cons_ge lv w ws m q cur hlw (by omega)] at h ⊢
        exact ih m q x h

/-- After relaxation every processed successor has a level at least `lv+1`. -/
theorem relaxAll_relax (lv : Nat) :
    ∀ (ws : List α) (m : List (α × Nat)) (q : List α) (w : α),
      w ∈ ws →
      ∃ lw, lookupL (relaxAll lv ws m q).1 w = some lw ∧ lv + 1 ≤ lw := by
  intro ws
  induction ws with
  | nil => intro m q w h; cases h
  | cons w0 ws ih =>
    intro m q w h
    rcases hlw : lookupL m w0 with _ | cur
    · rw [relaxAll_cons_none lv w0 ws m q hlw]
      rcases List.mem_cons.mp h with rfl | hws
      · obtain ⟨l', hl', hle⟩ := relaxAll_mono lv ws (mset m w (lv + 1)) (q ++ [w]) w (lv + 1)
          (lookupL_mset_self m w (lv + 1))
        exact ⟨l', hl', by omega⟩
      · exact ih _ _ w hws
    · by_cases hcur : cur < lv + 1
      · rw [relaxAll_cons_lt lv w0 ws m q cur hlw hcur]
        rcases List.mem_cons.mp h with rfl | hws
        · obtain ⟨l', hl', hle⟩ := relaxAll_mono lv ws (mset m w (lv + 1)) (q ++ [w]) w (lv + 1)
            (lookupL_mset_self m w (lv + 1))
          exact ⟨l', hl', by omega⟩
        · exact ih _ _ w hws
      · rw [relaxAll_cons_ge lv w0 ws m q cur hlw (by omega)]
        rcases List.mem_cons.mp h with rfl | hws
        · obtain ⟨l', hl', hle⟩ := relaxAll_mono lv ws m q w cur hlw
          exact ⟨l', hl', by omega⟩
        · exact ih m q w hws

/-- Any element whose level changed during relaxation was enqueued. -/
theorem relaxAll_stable (lv : Nat) :
    ∀ (ws : List α) (m : List (α × Nat)) (q : List α) (x : α),
      lookupL (relaxAll lv ws m q).1 x ≠ lookupL m x →
      x ∈ (relaxAll lv ws m q).2 := by
  intro ws
  induction ws with
  | nil => exact fun m q x h => absurd rfl h
  | cons w ws ih =>
    intro m q x h
    rcases hlw : lookupL m w with _ | cur
    · rw [relaxAll_cons_none lv w ws m q hlw] at h ⊢
      by_cases hx : x = w
      · subst hx
        exact relaxAll_q_sub lv ws _ _ x (List.mem_append_right _ (List.mem_singleton.mpr rfl))
      · refine ih _ _ x ?_
        rwa [← lookupL_mset_ne m w x (lv + 1) hx] at h
    · by_cases hcur : cur < lv + 1
      · rw [relaxAll_cons_lt lv w ws m q cur hlw hcur] at h ⊢
        by_cases hx : x = w
        · subst hx
          exact relaxAll_q_sub lv ws _ _ x (List.mem_append_right _ (List.mem_singleton.mpr rfl))
        · refine ih _ _ x ?_
          rwa [← lookupL_mset_ne m w x (lv + 1) hx] at h
      · rw [relaxAll_cons_ge lv w ws m q cur hlw (by omega)] at h ⊢
        exact ih m q x h

end LayoutLemmas

section BfsLemmas

variable {α : Type} [DecidableEq α]

theorem bfsLoop_nil (succs : α → List α) (fuel : Nat) (m : List (α × Nat)) :
    bfsLoop succs fuel m [] = some m := by
  cases fuel <;> rfl

theorem bfsLoop_zero_cons (succs : α → List α) (m : List (α × Nat)) (v : α) (q : List α) :
    bfsLoop succs 0 m (v :: q) = none := rfl

theorem bfsLoop_succ_cons (succs : α → List α) (n : Nat) (m : List (α × Nat))
    (v : α) (q : List α) :
    bfsLoop succs (n + 1) m (v :: q) =
      bfsLoop succs n (relaxAll ((lookupL m v).getD 0) (succs v) m q).1
        (relaxAll ((lookupL m v).getD 0) (succs v) m q).2 := rfl

theorem mem_succsOf_iff (univ : List α) (covers : List (α × α)) (a w : α) :
    w ∈ succsOf univ covers a ↔ (a, w) ∈ coversInU univ covers := by
  unfold succsOf
  simp only [List.mem_map, List.mem_filter, decide_eq_true_eq]
  constructor
  · rintro ⟨p, ⟨hp, h1⟩, h2⟩
    have hpq : p = (a, w) := Prod.ext h1 h2
    rwa [hpq] at hp
  · intro h
    exact ⟨(a, w), ⟨h, rfl⟩, rfl⟩

theorem lookupL_map_zero_of_mem (l : List α) (x : α) (hx : x ∈ l) :
    lookupL (l.map fun u => (u, 0)) x = some 0 := by
  induction l with
  | nil => cases hx
  | cons u us ih =>
    rw [List.map_cons, lookupL_cons]
    by_cases hxu : x = u
    · rw [if_pos hxu]
    · rw [if_neg hxu]
      refine ih ?_
      rcases List.mem_cons.mp hx with h | h
      · exact absurd h hxu
      · exact h

theorem mem_of_lookupL_map_zero_some (l : List α) (x : α) (v : Nat)
    (h : lookupL (l.map fun u => (u, 0)) x = some v) : x ∈ l := by
  induction l with
  | nil => cases h
  | cons u us ih =>
    rw [List.map_cons, lookupL_cons] at h
    by_cases hxu : x = u
    · subst hxu
      exact List.mem_cons_self _ _
    · rw [if_neg hxu] at h
      exact List.mem_cons_of_mem _ (ih h)

/-- Main invariant of the worklist loop: if every queued element has a level,
and every settled edge source (in the map but not queued) already dominates
its successors, then at termination every mapped source strictly dominates
its successors. -/
theorem bfsLoop_level_inv (univ : List α) (covers : List (α × α)) :
    ∀ (fuel : Nat) (m : List (α × Nat)) (q : List α) (mf : List (α × Nat)),
      bfsLoop (succsOf univ covers) fuel m q = some mf →
      (∀ x ∈ q, (lookupL m x).isSome = true) →
      (∀ a b, (a, b) ∈ coversInU univ covers → a ∉ q →
        ∀ la, lookupL m a = some la → ∃ lb, lookupL m b = some lb ∧ la < lb) →
      ∀ a b, (a, b) ∈ coversInU univ covers →
        ∀ la, lookupL mf a = some la → ∃ lb, lookupL mf b = some lb ∧ la < lb := by
  intro fuel
  induction fuel with
  | zero =>
    intro m q mf hbfs hq hinv
    cases q with
    | nil =>
      rw [bfsLoop_nil] at hbfs
      injection hbfs with hmf
      subst hmf
      intro a b hE la hla
      exact hinv a b hE (List.not_mem_nil a) la hla
    | cons v q' =>
      rw [bfsLoop_zero_cons] at hbfs
      cases hbfs
  | succ n ih =>
    intro m q mf hbfs hq hinv
    cases q with
    | nil =>
      rw [bfsLoop_nil] at hbfs
      injection hbfs with hmf
      subst hmf
      intro a b hE la hla
      exact hinv a b hE (List.not_mem_nil a) la hla
    | cons v q' =>
      have hvsome := hq v (List.mem_cons_self v q')
      rcases hlk : lookupL m v with _ | lv0
      · rw [hlk] at hvsome
        cases hvsome
      rw [bfsLoop_succ_cons, hlk, Option.getD_some] at hbfs
      refine ih _ _ mf hbfs ?_ ?_
      · intro x hx
        rcases relaxAll_q_new lv0 (succsOf univ covers v) m q' x hx with hq2 | hs
        · have hx' := hq x (List.mem_cons_of_mem v hq2)
          rcases hox : lookupL m x with _ | xl
          · rw [hox] at hx'
            cases hx'
          · obtain ⟨l', hl', _⟩ := relaxAll_mono lv0 (succsOf univ covers v) m q' x xl hox
            simp [hl']
        · exact hs
      · intro a b hE ha la hla
        by_cases hch : lookupL (relaxAll lv0 (succsOf univ covers v) m q').1 a = lookupL m a
        · have hma : lookupL m a = some la := by rw [← hch]; exact hla
          by_cases hav : a = v
          · subst hav
            have hb : b ∈ succsOf univ covers a := (mem_succsOf_iff univ covers a b).mpr hE
            obtain ⟨lb, hlb, hge⟩ := relaxAll_relax lv0 (succsOf univ covers a) m q' b hb
            have hla0 : la = lv0 := by
              rw [hma] at hlk
              injection hlk
            exact ⟨lb, hlb, by omega⟩
          · have haq' : a ∉ q' := fun hc =>
              ha (relaxAll_q_sub lv0 (succsOf univ covers v) m q' a hc)
            have hnotin : a ∉ v :: q' := by
              intro hc
              rcases List.mem_cons.mp hc with h | h
              · exact hav h
              · exact haq' h
            obtain ⟨lb, hlb, hlt⟩ := hinv a b hE hnotin la hma
            obtain ⟨lb', hlb', hle⟩ := relaxAll_mono lv0 (succsOf univ covers v) m q' b lb hlb
            exact ⟨lb', hlb', by omega⟩
        · exact absurd (relaxAll_stable lv0 (succsOf univ covers v) m q' a hch) ha

end BfsLemmas

/-! ## Claim theorems -/

/-- C4 (code bug): `egcd` does not always satisfy the Bézout identity
`g = a·x + b·y`.  At `a = 2`, `b = -2` it returns `{g := 2, x := 0, y := 1}`,
and `2·0 + (-2)·1 = -2 ≠ 2`: the loop normalizes `g` to `|a|` but leaves the
coefficients for the signed value. -/
theorem c4_egcd_bezout_fails :
    egcd 2 (-2) = ⟨2, 0, 1⟩ ∧
      2 * (egcd 2 (-2)).x + (-2) * (egcd 2 (-2)).y = -2 ∧
      2 * (egcd 2 (-2)).x + (-2) * (egcd 2 (-2)).y ≠ (egcd 2 (-2)).g := by
  decide

/-- C3 (code bug): `modInv` can return a non-null value that is not an
inverse.  At `a = -3`, `n = 5` it returns `2`, but
`modNorm((-3)·2, 5) = 4 ≠ 1` (the true inverse of `-3 ≡ 2 (mod 5)` is `3`);
the Bézout coefficient produced by `egcd` for negative `a` can represent
`-gcd` instead of `gcd`. -/
theorem c3_modInv_fails :
    modInv (-3) 5 = some 2 ∧ modNorm ((-3) * 2) 5 = 4 ∧ modNorm ((-3) * 2) 5 ≠ 1 := by
  decide

/-- Witness for C7 at `a = 3`, `b = 7`, `n = 5` (which has the solution
`x₀ = 4`). -/
theorem c7_witness :
    ((solveLinearCongruence 3 7 5).hasSolution = false ↔ ¬ ((Int.gcd 3 5 : Int) ∣ 7)) ∧
    ∀ x0, (solveLinearCongruence 3 7 5).x0 = some x0 → modNorm (3 * x0 - 7) 5 = 0 :=
  c7_solveLinearCongruence_spec 3 7 5 (by norm_num)

/-- C6: the closure always contains every reflexive pair `(x,x)` for `x ∈ U`,
with no precondition on the cover list. -/
theorem c6_closure_reflexive {α : Type} [DecidableEq α] (U : List α)
    (covers : List (α × α)) (x : α) (hx : x ∈ U) :
    (x, x) ∈ transitiveClosureFromCovers U covers :=
  (mem_transClosure_iff U covers x x).mpr ⟨hx, Or.inl rfl⟩

/-- Witness for C6 at `U = [1,2]`, `H = [(2,1)]`, `x = 1`. -/
theorem c6_witness : ((1, 1) : ℕ × ℕ) ∈ transitiveClosureFromCovers [1, 2] [(2, 1)] :=
  c6_closure_reflexive [1, 2] [(2, 1)] 1 (by decide)

/-- C1 (counterexample): the closure does **not** drop cover pairs whose
second endpoint is outside the universe.  With `U = [1]`, `H = [(1,2)]` the
output contains `(1,2)` although `2 ∉ U`, and it differs from the closure of
the `U`-filtered cover list (which is `[(1,1)]`). -/
theorem c1_counterexample :
    ((1, 2) : ℕ × ℕ) ∈ transitiveClosureFromCovers [1] [(1, 2)] ∧
      (2 : ℕ) ∉ [1] ∧
      ((1, 2) : ℕ × ℕ) ∉
        transitiveClosureFromCovers [1]
          (([(1, 2)] : List (ℕ × ℕ)).filter fun p =>
            decide (p.1 ∈ [1]) && decide (p.2 ∈ [1])) := by
  decide

/-- C1 (amended): what does hold is that every pair of the closure output has
its **first** endpoint in `U` (sources are drawn from `U`); second endpoints
may escape `U` because the adjacency structure is built from the unfiltered
cover list. -/
theorem c1_amended {α : Type} [DecidableEq α] (U : List α) (covers : List (α × α))
    (p : α × α) (hp : p ∈ transitiveClosureFromCovers U covers) : p.1 ∈ U := by
  obtain ⟨x, y⟩ := p
  exact ((mem_transClosure_iff U covers x y).mp hp).1

/-- Witness for C1's amended theorem at `U = [1]`, `H = [(1,2)]`,
`p = (1,2)`. -/
theorem c1_amended_witness : ((1, 2) : ℕ × ℕ).1 ∈ [1] :=
  c1_amended [1] [(1, 2)] (1, 2) (by decide)

/-- C10: every pair returned by `coversFromRelation` is a member of the input
pair list, is non-reflexive, and has both endpoints in the universe — for
arbitrary inputs, including a `relSet` unrelated to `relPairs`. -/
theorem c10_covers_subset {α : Type} [DecidableEq α] (U : List α)
    (relPairs relSet : List (α × α)) (a b : α)
    (h : (a, b) ∈ coversFromRelation U relPairs relSet) :
    (a, b) ∈ relPairs ∧ a ≠ b ∧ a ∈ U ∧ b ∈ U := by
  have hc := (mem_coversFromRelation U relPairs relSet (a, b)).mp h
  exact ⟨hc.1, hc.2.1, hc.2.2.1, hc.2.2.2.1⟩

/-- Witness for C10 at `U = [1,2]`, `relPairs = relSet = [(1,2)]`. -/
theorem c10_witness :
    ((1, 2) : ℕ × ℕ) ∈ [((1 : ℕ), (2 : ℕ))] ∧ (1 : ℕ) ≠ 2 ∧ (1 : ℕ) ∈ [1, 2] ∧ (2 : ℕ) ∈ [1, 2] :=
  c10_covers_subset [1, 2] [(1, 2)] [(1, 2)] 1 2 (by decide)

/-- C9: the reflexivity check is true iff every `x ∈ U` has `(x,x) ∈ R`, and
for a reflexive `(U, R)`, removing the diagonal pair `(x,x)` of an element
`x ∈ U` flips the check to false with reported witness exactly `x` (the
first universe element lacking its diagonal pair). -/
theorem c9_reflexive_spec {α : Type} [DecidableEq α] (U : List α)
    (R : List (α × α)) (x : α) :
    (reflexiveCheck U R = true ↔ ∀ y ∈ U, (y, y) ∈ R) ∧
    (reflexiveCheck U R = true → x ∈ U →
      reflexiveCheck U (R.filter (fun p => decide (p ≠ (x, x)))) = false ∧
      reflexiveMissing U (R.filter (fun p => decide (p ≠ (x, x)))) = some x) := by
  refine ⟨reflexiveCheck_true_iff U R, fun href hx => ?_⟩
  have hall : ∀ y ∈ U, (y, y) ∈ R := (reflexiveCheck_true_iff U R).mp href
  have hmiss := reflexiveMissing_filter_diag U R x hx hall
  refine ⟨?_, hmiss⟩
  unfold reflexiveCheck
  rw [hmiss]
  rfl

/-- Witness for C9 at `U = [1,2]`, `R = [(1,1),(2,2)]`, removed element
`x = 2`. -/
theorem c9_witness :
    (reflexiveCheck [1, 2] (([(1, 1), (2, 2)] : List (ℕ × ℕ)).filter
        (fun p => decide (p ≠ (2, 2)))) = false) ∧
      reflexiveMissing [1, 2] (([(1, 1), (2, 2)] : List (ℕ × ℕ)).filter
        (fun p => decide (p ≠ (2, 2)))) = some 2 :=
  (c9_reflexive_spec [1, 2] [(1, 1), (2, 2)] 2).2 (by decide) (by decide)

/-- C5: round-trip.  If every cover pair has both endpoints in `U`, the cover
graph is acyclic, and no cover pair is implied by a path of length ≥ 2
through the other cover edges, then `coversFromRelation` applied to the
closure of `H` (with the closure's own pair set as membership set) contains
exactly the pairs of `H`. -/
theorem c5_round_trip {α : Type} [DecidableEq α] (U : List α) (covers : List (α × α))
    (hU : ∀ p ∈ covers, p.1 ∈ U ∧ p.2 ∈ U)
    (hacyc : AcyclicCovers covers)
    (hirr : IrredundantCovers covers)
    (p : α × α) :
    p ∈ coversFromRelation U (transitiveClosureFromCovers U covers)
        (transitiveClosureFromCovers U covers) ↔ p ∈ covers := by
  obtain ⟨a, b⟩ := p
  rw [mem_coversFromRelation]
  constructor
  · rintro ⟨hmem, hne, haU, hbU, hnoint⟩
    obtain ⟨-, hreach⟩ := (mem_transClosure_path U covers a b).mp hmem
    rcases hreach with rfl | ⟨l, hp⟩
    · exact absurd rfl hne
    · cases l with
      | nil =>
        cases hp with
        | single h => exact h
      | cons c l' =>
        exfalso
        have hcne := acyclic_interior_ne hacyc hp (List.mem_cons_self c l')
        cases hp with
        | @cons _ _ _ _ h hp' =>
          have hcU : c ∈ U := (hU (a, c) h).2
          have hac : (a, c) ∈ transitiveClosureFromCovers U covers :=
            (mem_transClosure_path U covers a c).mpr
              ⟨haU, Or.inr ⟨[], PathIn.single h⟩⟩
          have hcb : (c, b) ∈ transitiveClosureFromCovers U covers :=
            (mem_transClosure_path U covers c b).mpr ⟨hcU, Or.inr ⟨l', hp'⟩⟩
          exact hnoint c hcU hcne.1 hcne.2 ⟨hac, hcb⟩
  · intro hab
    have haU : a ∈ U := (hU (a, b) hab).1
    have hbU : b ∈ U := (hU (a, b) hab).2
    have hne : a ≠ b := by
      rintro rfl
      exact hacyc a [] (PathIn.single hab)
    refine ⟨(mem_transClosure_path U covers a b).mpr
      ⟨haU, Or.inr ⟨[], PathIn.single hab⟩⟩, hne, haU, hbU, ?_⟩
    rintro c hcU hca hcb ⟨hac, hcb2⟩
    obtain ⟨-, hr1⟩ := (mem_transClosure_path U covers a c).mp hac
    obtain ⟨-, hr2⟩ := (mem_transClosure_path U covers c b).mp hcb2
    rcases hr1 with hll | ⟨l₁, hp1⟩
    · exact hca hll
    rcases hr2 with hbc | ⟨l₂, hp2⟩
    · exact hcb hbc.symm
    have hcomp := pathIn_append hp1 hp2
    have hnenil : l₁ ++ c :: l₂ ≠ [] := by simp
    exact hirr a b hab _ hnenil (pathIn_avoid hacyc hcomp hnenil)

/-- Witness for C5 at `U = [1,2]`, `H = [(1,2)]` (an irredundant acyclic
cover), checking that the round trip returns `(1,2)`. -/
theorem c5_witness :
    ((1, 2) : ℕ × ℕ) ∈ coversFromRelation [1, 2]
        (transitiveClosureFromCovers [1, 2] [(1, 2)])
        (transitiveClosureFromCovers [1, 2] [(1, 2)]) ↔
      ((1, 2) : ℕ × ℕ) ∈ [((1 : ℕ), (2 : ℕ))] := by
  refine c5_round_trip [1, 2] [(1, 2)] (by decide) ?_ ?_ (1, 2)
  · intro x l hp
    cases hp with
    | single h =>
      have h' : (x, x) = ((1 : ℕ), 2) := List.mem_singleton.mp h
      injection h' with h1 h2
      omega
    | @cons _ c _ l' h hp' =>
      have h' : (x, c) = ((1 : ℕ), 2) := List.mem_singleton.mp h
      injection h' with h1 h2
      subst h1
      subst h2
      cases hp' with
      | single h'' =>
        have h3 : ((2 : ℕ), 1) = (1, 2) := List.mem_singleton.mp h''
        injection h3 with h4 _
        omega
      | @cons _ d _ l'' h'' _ =>
        have h3 : ((2 : ℕ), d) = (1, 2) := List.mem_singleton.mp h''
        injection h3 with h4 _
        omega
  · intro a b hab l hl hp
    have habq : (a, b) = ((1 : ℕ), 2) := List.mem_singleton.mp hab
    cases hp with
    | single h => exact hl rfl
    | @cons _ c _ l' h _ =>
      exact h.2 ((List.mem_singleton.mp h.1).trans habq.symm)

/-- C2 (code bug): `layoutHasse` does **not** terminate on every input.  On
the two-element cycle `H = [(0,1),(1,0)]` the forced seed starts an endless
relaxation: each pass around the cycle raises the levels by one, so the
worklist never empties — for every fuel bound the modelled loop is still
running.  The claim (and the spec) say the fallback guarantees termination. -/
theorem c2_layout_diverges (fuel : Nat) :
    layoutHasseLevels fuel [0, 1] [((0 : ℕ), (1 : ℕ)), (1, 0)] = none := by
  have hentry : bfsResult fuel [0, 1] [((0 : ℕ), (1 : ℕ)), (1, 0)] =
      bfsLoop (succsOf [0, 1] [((0 : ℕ), (1 : ℕ)), (1, 0)]) fuel [(0, 0)] [0] := rfl
  suffices h : bfsLoop (succsOf [0, 1] [((0 : ℕ), (1 : ℕ)), (1, 0)]) fuel [(0, 0)] [0] =
      none by
    unfold layoutHasseLevels
    rw [hentry, h]
    rfl
  have key : ∀ (n : Nat) (m : List (ℕ × Nat)) (v w : ℕ) (lv : Nat),
      ((v = 0 ∧ w = 1) ∨ (v = 1 ∧ w = 0)) →
      lookupL m v = some lv →
      (∀ cur, lookupL m w = some cur → cur < lv + 1) →
      bfsLoop (succsOf [0, 1] [((0 : ℕ), (1 : ℕ)), (1, 0)]) n m [v] = none := by
    intro n
    induction n with
    | zero =>
      intro m v w lv _ _ _
      exact bfsLoop_zero_cons _ m v []
    | succ k ih =>
      intro m v w lv hvw hv hw
      rw [bfsLoop_succ_cons, hv, Option.getD_some]
      have hsucc : succsOf [0, 1] [((0 : ℕ), (1 : ℕ)), (1, 0)] v = [w] := by
        rcases hvw with ⟨rfl, rfl⟩ | ⟨rfl, rfl⟩ <;> rfl
      have hvne : v ≠ w := by
        rcases hvw with ⟨rfl, rfl⟩ | ⟨rfl, rfl⟩ <;> omega
      rw [hsucc]
      have hrelax : relaxAll lv [w] m [] = (mset m w (lv + 1), [w]) := by
        rcases hlw : lookupL m w with _ | cur
        · rw [relaxAll_cons_none lv w [] m [] hlw]
          rfl
        · rw [relaxAll_cons_lt lv w [] m [] cur hlw (hw cur hlw)]
          rfl
      rw [hrelax]
      refine ih (mset m w (lv + 1)) w v (lv + 1) ?_ (lookupL_mset_self m w (lv + 1)) ?_
      · rcases hvw with ⟨rfl, rfl⟩ | ⟨rfl, rfl⟩
        · exact Or.inr ⟨rfl, rfl⟩
        · exact Or.inl ⟨rfl, rfl⟩
      · intro cur hcur
        rw [lookupL_mset_ne m w v (lv + 1) hvne] at hcur
        rw [hv] at hcur
        injection hcur with hcur'
        omega
  refine key fuel [(0, 0)] 0 1 0 (Or.inl ⟨rfl, rfl⟩) (by rw [lookupL_cons, if_pos rfl]) ?_
  intro cur hcur
  rw [lookupL_cons, if_neg (by omega)] at hcur
  cases hcur

/-- C8 (counterexample): on `U = [0,1,2]`, `H = [(1,2),(2,1)]` the layout
terminates (the cycle is unreachable from the seed `0`), and the cover edge
`(1,2)` — both endpoints in `U` — gets level 0 for both `1` and `2`: the
level of `2` is not strictly greater than the level of `1`. -/
theorem c8_counterexample :
    layoutHasseLevels 10 [0, 1, 2] [((1 : ℕ), (2 : ℕ)), (2, 1)] =
        some [(0, 0), (1, 0), (2, 0)] ∧
      ((1 : ℕ), (2 : ℕ)) ∈ [((1 : ℕ), (2 : ℕ)), (2, 1)] ∧
      (1 : ℕ) ∈ [0, 1, 2] ∧ (2 : ℕ) ∈ [0, 1, 2] := by
  decide

/-- C8 (amended): upward leveling holds for every cover edge whose source was
assigned a level by the relaxation phase (i.e. is a key of the worklist level
map when the loop terminates): the target then also has a level, strictly
greater.  Edges whose source is only levelled by the default-to-0 backfill
may point sideways. -/
theorem c8_amended {α : Type} [DecidableEq α] (univ : List α) (covers : List (α × α))
    (fuel : Nat) (m : List (α × Nat)) (a b : α) (la : Nat)
    (hres : bfsResult fuel univ covers = some m)
    (hab : (a, b) ∈ covers) (haU : a ∈ univ) (hbU : b ∈ univ)
    (hla : lookupL m a = some la) :
    ∃ lb, lookupL m b = some lb ∧ la < lb := by
  have hE : (a, b) ∈ coversInU univ covers := by
    unfold coversInU
    exact List.mem_filter.mpr ⟨hab, by simp [haU, hbU]⟩
  simp only [bfsResult] at hres
  split at hres
  · refine bfsLoop_level_inv _ covers fuel _ _ m hres ?_ ?_ a b hE la hla
    · intro x hx
      have hxu := List.mem_singleton.mp hx
      subst hxu
      rw [lookupL_cons, if_pos rfl]
      rfl
    · intro a' b' _ ha' la' hla'
      exfalso
      rw [lookupL_cons] at hla'
      split at hla'
      case isTrue h => exact ha' (List.mem_singleton.mpr h)
      case isFalse h =>
        rw [show lookupL ([] : List (α × Nat)) a' = none from rfl] at hla'
        cases hla'
  · refine bfsLoop_level_inv _ covers fuel _ _ m hres ?_ ?_ a b hE la hla
    · intro x hx
      rw [lookupL_map_zero_of_mem _ x hx]
      rfl
    · intro a' b' _ ha' la' hla'
      exact absurd (mem_of_lookupL_map_zero_some _ a' la' hla') ha'

/-- Witness for C8's amended theorem at `U = [0,1]`, `H = [(0,1)]`,
`fuel = 10`: the relaxation gives `0 ↦ 0`, `1 ↦ 1`. -/
theorem c8_witness :
    ∃ lb, lookupL [((1 : ℕ), 1), (0, 0)] (1 : ℕ) = some lb ∧ 0 < lb :=
  c8_amended [0, 1] [(0, 1)] 10 [(1, 1), (0, 0)] 0 1 0 (by decide) (by decide)
    (by decide) (by decide) (by decide)
